import Mathlib

/-!
Verification of the coursera-dl design specification against the source file
src/coursera/coursera_dl.py.  Every definition below is a shallow embedding of
the corresponding Python function; line numbers in the doc comments refer to
that file.
-/

set_option autoImplicit false

namespace CourseraDL

/-! ## Filename sanitizer: clean_filename (lines 383-393) -/

/-- Python string.whitespace characters, used by str.strip(). -/
def isPyWS (c : Char) : Bool :=
  c = ' ' || c = '\t' || c = '\n' || c = '\r' || c = '\x0b' || c = '\x0c'

/-- Model of re.sub("\\([^\\(]*$", '', s): the regex matches at the last
occurrence of a left parenthesis (the only position where all following
characters are non-parentheses and the match reaches end of string), so the
substitution removes everything from the last left parenthesis to the end;
a string without a left parenthesis is returned unchanged. -/
def stripParenTail (l : List Char) : List Char :=
  if l.contains '(' then ((l.reverse.dropWhile (fun c => !(c = '('))).tail).reverse
  else l

/-- Model of str.strip(): drop leading and trailing Python whitespace. -/
def pyStrip (l : List Char) : List Char :=
  ((l.dropWhile isPyWS).reverse.dropWhile isPyWS).reverse

/-- Model of str.replace('nbsp', ''): scan left to right, removing each
non-overlapping occurrence of the 4-character pattern and continuing after
the removed occurrence. -/
def removeNbsp : List Char → List Char
  | 'n' :: 'b' :: 's' :: 'p' :: rest => removeNbsp rest
  | c :: rest => c :: removeNbsp rest
  | [] => []

/-- The valid character set of clean_filename:
'-_.()' ++ string.ascii_letters ++ string.digits. -/
def isValidChar (c : Char) : Bool :=
  c = '-' || c = '_' || c = '.' || c = '(' || c = ')' || c.isAlpha || c.isDigit

/-- Model of clean_filename (lines 383-393): strip a trailing parenthesized
suffix, strip surrounding whitespace, replace colons with dashes and spaces
with underscores, delete occurrences of the substring nbsp, and keep only
characters from the valid set. -/
def clean_filename (s : String) : String :=
  let l := stripParenTail s.data
  let l := pyStrip l
  let l := l.map (fun c => if c = ':' then '-' else c)
  let l := l.map (fun c => if c = ' ' then '_' else c)
  let l := removeNbsp l
  ⟨l.filter isValidChar⟩

/-- Detects an occurrence of the substring nbsp, matching the scan order of
removeNbsp. -/
def hasNbsp : List Char → Bool
  | 'n' :: 'b' :: 's' :: 'p' :: _ => true
  | _ :: rest => hasNbsp rest
  | [] => false

/-! ## Format extraction: get_anchor_format (lines 396-404) -/

/-- Python \\w without re.UNICODE on a byte string: ASCII letters, digits and
underscore. -/
def isWordChar (c : Char) : Bool :=
  c.isAlpha || c.isDigit || c = '_'

/-- True when the regex fragment ".*$" (dot not matching newline, dollar
matching at end of string or just before one trailing newline) matches the
whole remaining text t. -/
def dotStarEndOk (t : List Char) : Bool :=
  !t.contains '\n' || (!t.dropLast.contains '\n' && t.getLast? == some '\n')

/-- Match of the regex tail "(\\w+)(?:\\?.*)?$" against the text following a
literal dot or a literal format= occurrence: the group is the maximal
nonempty run of word characters, and the run must be followed by the end of
the string (possibly via one trailing newline) or by a question mark whose
remainder satisfies dotStarEndOk. -/
def matchTail (l : List Char) : Option String :=
  let w := l.takeWhile isWordChar
  let rest := l.drop w.length
  if w.isEmpty then none
  else
    match rest with
    | [] => some ⟨w⟩
    | ['\n'] => some ⟨w⟩
    | '?' :: t => if dotStarEndOk t then some ⟨w⟩ else none
    | _ => none

/-- Leftmost search of the regex "(?:\\.|format=)(\\w+)(?:\\?.*)?$": try each
start position from the left; at a position the alternation offers a literal
dot or the literal text format=, followed by the tail match.  The two
alternatives never both apply at one position since a dot is not the letter
f. -/
def anchorSearch : List Char → Option String
  | [] => none
  | c :: rest =>
    match (if c = '.' then matchTail rest else none) with
    | some w => some w
    | none =>
      match (if (c :: rest).take 7 = "format=".data
             then matchTail ((c :: rest).drop 7) else none) with
      | some w => some w
      | none => anchorSearch rest

/-- Model of get_anchor_format (lines 396-404): re.search of the pattern
"(?:\\.|format=)(\\w+)(?:\\?.*)?$" over the anchor text, returning group 1
when a match exists. -/
def get_anchor_format (a : String) : Option String :=
  anchorSearch a.data

/-- Substring test used to describe anchors containing the text format=. -/
def containsFormatEq : List Char → Bool
  | [] => false
  | c :: rest => (c :: rest).take 7 = "format=".data || containsFormatEq rest

end CourseraDL

namespace CourseraDL

/-! ## Syllabus parser: parse_syllabus (lines 407-457)

The BeautifulSoup traversal supplies, for each section header tag, the raw
section-name text and for each lecture list item the raw lecture-name text
plus the href of every anchor in document order.  The parser proper is
embedded over that decoded input: a raw section is a pair of its name text
and its raw lectures, a raw lecture a pair of its name text and its anchor
hrefs. -/

/-- A parsed lecture: an association list from format tag to URL, in first
insertion order with last-assignment-wins values, modelling the Python dict
assignment lecture[fmt] = href. -/
abbrev LectureMap := List (String × String)

/-- Model of dict assignment m[k] = v: overwrite the value when the key is
present, otherwise append the new binding. -/
def dictInsert (m : LectureMap) (k v : String) : LectureMap :=
  if (m.map Prod.fst).contains k then
    m.map (fun q => if q.1 == k then (q.1, v) else q)
  else m ++ [(k, v)]

/-- Lookup in a LectureMap, modelling the Python membership test. -/
def dictFind (m : LectureMap) (k : String) : Option String :=
  match m.find? (fun q => q.1 == k) with
  | some q => some q.2
  | none => none

/-- The anchor loop of parse_syllabus (lines 431-436): for each anchor href
in document order, derive a format with get_anchor_format and, when one is
found, assign lecture[fmt] = href; anchors matching neither pattern
contribute nothing. -/
def buildLectureMap (hrefs : List String) : LectureMap :=
  hrefs.foldl (fun m href =>
    match get_anchor_format href with
    | some fmt => dictInsert m fmt href
    | none => m) []

/-- The per-lecture body of parse_syllabus (lines 426-444): clean the lecture
name, build the format map from the anchors, and raise ClassNotFound with
message Missing/hidden videos? when the map lacks an mp4 entry. -/
def parseLecture (lname : String) (hrefs : List String) :
    Except String (String × LectureMap) :=
  match dictFind (buildLectureMap hrefs) "mp4" with
  | some _ => .ok (clean_filename lname, buildLectureMap hrefs)
  | none => .error "Missing/hidden videos?"

/-- The total per-lecture result, equal to the parseLecture value whenever
parseLecture succeeds. -/
def parseLectureTotal (lname : String) (hrefs : List String) :
    String × LectureMap :=
  (clean_filename lname, buildLectureMap hrefs)

/-- The per-section body of parse_syllabus (lines 417-446): clean the section
name and parse each lecture in document order, propagating the first
failure. -/
def parseSection (sname : String) (lects : List (String × List String)) :
    Except String (String × List (String × LectureMap)) := do
  let ls ← lects.mapM (fun p => parseLecture p.1 p.2)
  pure (clean_filename sname, ls)

/-- The total per-section result. -/
def parseSectionTotal (p : String × List (String × List String)) :
    String × List (String × LectureMap) :=
  (clean_filename p.1, p.2.map (fun q => parseLectureTotal q.1 q.2))

/-- Model of parse_syllabus (lines 407-457) over the decoded raw structure:
process every section in document order; afterwards, when the section list
is nonempty and the reverse flag is set, reverse the section list in place
(lines 451-452).  A failure while parsing any lecture aborts the whole
parse. -/
def parse_syllabus (raw : List (String × List (String × List String)))
    (reverse : Bool) :
    Except String (List (String × List (String × LectureMap))) := do
  let sections ← raw.mapM (fun p => parseSection p.1 p.2)
  pure (if !sections.isEmpty && reverse then sections.reverse else sections)

/-- True when an Except value is an error. -/
def isError {ε α : Type} : Except ε α → Bool
  | .error _ => true
  | .ok _ => false

/-! ## Session authenticator: write_cookie_file (lines 130-163)

The function issues a GET for the syllabus page, then a POST to the login
endpoint; the only input that decides its visible outcome is the status code
of the login POST.  Lines 158-161 raise ClassNotFound for every status code:
404 raises ClassNotFound(className), everything else (success included)
raises ClassNotFound with an Error message; the assignment session = s on
line 163 is unreachable. -/

/-- The error raised by the authenticator and the parser. -/
inductive CourseraError where
  | classNotFound (msg : String)
  deriving Repr, DecidableEq

/-- Model of write_cookie_file (lines 130-163) as a function of the login
POST status code; the return value would be the session kept for later
requests, but every control path raises. -/
def write_cookie_file (className : String) (loginStatus : Nat) :
    Except CourseraError Unit :=
  if loginStatus = 404 then
    .error (.classNotFound className)
  else
    .error (.classNotFound ("Error " ++ toString loginStatus ++ " with " ++ className))

/-! ## Page fetcher: get_syllabus (lines 349-380)

Line 365 of the source reads if not local_page with no trailing colon, a
Python syntax error; the model adds the colon the indentation dictates.  The
filesystem is a partial map from path to contents, the live fetch an opaque
page value.  The result records the returned page together with whether the
cache-write on lines 372-374 ran; that write is guarded by if local_page
inside the branch taken only when local_page is falsy, so it never runs. -/

/-- Python truthiness of the local_page option: None and the empty string are
falsy. -/
def isTruthy : Option String → Bool
  | none => false
  | some s => !(s == "")

/-- Model of get_syllabus (lines 349-380), colon on line 365 restored.  With
a truthy local_page, both the first block (lines 354-361) and the else arm
of the second block (lines 375-378) read the cache file, so a missing cache
file raises an IOError from open; with a falsy local_page the live fetch
result is returned, and the cache write of lines 372-374 is dead because its
guard re-tests local_page inside the not-local branch. -/
def get_syllabus (fs : String → Option String) (fetched : String)
    (local_page : Option String) : Except String (String × Bool) :=
  if isTruthy local_page then
    match fs (local_page.getD "") with
    | some c => .ok (c, false)
    | none => .error "IOError: No such file or directory"
  else
    let page := fetched
    if isTruthy local_page then .ok (page, true) else .ok (page, false)

/-- Whether a get_syllabus outcome performed the cache write. -/
def wroteCache : Except String (String × Bool) → Bool
  | .ok p => p.2
  | .error _ => false

/-! ## Download planner: download_lectures (lines 474-545) and
total_seconds (lines 548-554)

The filesystem is a list of directories plus a list of files with integer
modification times; time.time() is a single integer now.  Each visible
action of the planner is recorded as an event: a transfer (download_file
call), a touch (the skip_download placeholder), or a skip of an already
present file with the modification time it read. -/

/-- The local filesystem as the planner observes it. -/
structure FS where
  dirs : List String
  files : List (String × Int)
  deriving Repr, DecidableEq

/-- Model of os.path.exists on the planner's namespace of directories and
files. -/
def fsExists (fs : FS) (p : String) : Bool :=
  fs.dirs.contains p || (fs.files.map Prod.fst).contains p

/-- Model of os.path.getmtime: the recorded modification time of the file,
or 0 when the path names a directory (a directory's modification time is
some nonnegative value; the planner only compares it against now). -/
def getmtime (fs : FS) (p : String) : Int :=
  match fs.files.find? (fun q => q.1 == p) with
  | some q => q.2
  | none => 0

/-- Writing (or touching) a file: the path now exists with modification time
t, replacing any previous entry. -/
def setFile (fs : FS) (p : String) (t : Int) : FS :=
  if (fs.files.map Prod.fst).contains p then
    { fs with files := fs.files.map (fun q => if q.1 == p then (q.1, t) else q) }
  else { fs with files := fs.files ++ [(p, t)] }

/-- Model of mkdir_p on the planner's namespace: record the section
directory (mkdir_p also creates missing ancestors; only the leaf is ever
tested by the planner). -/
def addDir (fs : FS) (p : String) : FS :=
  { fs with dirs := fs.dirs ++ [p] }

/-- One visible planner action. -/
inductive DLEvent where
  | transfer (url path : String)
  | touch (path : String)
  | skip (path : String) (mtime : Int)
  deriving Repr, DecidableEq

/-- Running state of a download_lectures invocation: the filesystem, the
section directories created by mkdir_p this run, the visible events in
order, and the last_update accumulator initialized to -1 (line 493). -/
structure DLState where
  fs : FS
  dirsCreated : List String
  events : List DLEvent
  last_update : Int
  deriving Repr, DecidableEq

/-- Model of os.path.join for the relative, separator-free segments the
planner produces: an empty left part disappears, otherwise a slash joins
the two parts. -/
def pathJoin (a b : String) : String :=
  if a = "" then b else a ++ "/" ++ b

/-- Python '%02d' formatting for the nonnegative positions used by the
planner. -/
def pad2 (n : Nat) : String :=
  if n < 10 then "0" ++ toString n else toString n

/-- Model of format_section (lines 495-499). -/
def format_section (class_name : String) (verbose_dirs : Bool) (num : Nat)
    (sname : String) : String :=
  let sec := pad2 num ++ "_" ++ sname
  if verbose_dirs then class_name.toUpper ++ "_" ++ sec else sec

/-- Model of format_resource (lines 501-502). -/
def format_resource (num : Nat) (name fmt : String) : String :=
  pad2 num ++ "_" ++ name ++ "." ++ fmt

/-- A section-name or lecture-name filter: none models a falsy filter
argument, some p the predicate an re.search with the configured pattern
computes.  The guard if filter and not re.search(filter, name): continue
processes the name exactly when this returns true. -/
def passesFilter (f : Option (String → Bool)) (s : String) : Bool :=
  match f with
  | none => true
  | some p => p s

/-- The resource allow-list test of lines 519-521: the format is kept when
it occurs in file_formats or the sentinel all does. -/
def formatAllowed (file_formats : List String) (fmt : String) : Bool :=
  file_formats.contains fmt || file_formats.contains "all"

/-- The per-resource body of lines 522-537: compute the destination path;
when overwrite is set or the file is absent, transfer (or touch under
skip_download) and set last_update to now; otherwise record the existing
file's modification time into last_update via max. -/
def processResource (overwrite skip_download : Bool) (now : Int)
    (sec : String) (lecnum : Nat) (lecname : String) (st : DLState)
    (fu : String × String) : DLState :=
  let lecfn := pathJoin sec (format_resource lecnum lecname fu.1)
  if overwrite || !fsExists st.fs lecfn then
    if !skip_download then
      { st with fs := setFile st.fs lecfn now,
                events := st.events ++ [.transfer fu.2 lecfn],
                last_update := now }
    else
      { st with fs := setFile st.fs lecfn now,
                events := st.events ++ [.touch lecfn],
                last_update := now }
  else
    { st with events := st.events ++ [.skip lecfn (getmtime st.fs lecfn)],
              last_update := max st.last_update (getmtime st.fs lecfn) }

/-- The per-lecture body of lines 511-537: skip the lecture when it fails
the lecture filter; otherwise create the section directory when it does not
exist yet, then process every allowed resource of the lecture. -/
def processLecture (file_formats : List String)
    (overwrite skip_download : Bool)
    (lecture_filter : Option (String → Bool)) (now : Int) (sec : String)
    (st : DLState) (lec : Nat × (String × LectureMap)) : DLState :=
  if !passesFilter lecture_filter lec.2.1 then st
  else
    let st :=
      if !fsExists st.fs sec then
        { st with fs := addDir st.fs sec, dirsCreated := st.dirsCreated ++ [sec] }
      else st
    (lec.2.2.filter (fun fu => formatAllowed file_formats fu.1)).foldl
      (processResource overwrite skip_download now sec (lec.1 + 1) lec.2.1) st

/-- The per-section body of lines 504-537: skip the section when it fails
the section filter; otherwise compute the section directory path and
process every lecture with its 1-based position. -/
def processSection (class_name : String) (file_formats : List String)
    (overwrite skip_download : Bool)
    (section_filter lecture_filter : Option (String → Bool))
    (path : String) (verbose_dirs : Bool) (now : Int)
    (st : DLState) (sp : Nat × (String × List (String × LectureMap))) :
    DLState :=
  if !passesFilter section_filter sp.2.1 then st
  else
    let sec := pathJoin (pathJoin path class_name)
      (format_section class_name verbose_dirs (sp.1 + 1) sp.2.1)
    sp.2.2.enum.foldl
      (processLecture file_formats overwrite skip_download lecture_filter now sec)
      st

/-- Model of total_seconds (lines 548-554) on the normalized timedelta
fields, with Python floor division. -/
def total_seconds (days seconds microseconds : Int) : Int :=
  Int.fdiv (microseconds + (seconds + days * 24 * 3600) * 10 ^ 6) (10 ^ 6)

/-- Result of a download_lectures invocation: the final state and the
returned completion flag. -/
structure DLResult where
  state : DLState
  completed : Bool
  deriving Repr, DecidableEq

/-- Model of download_lectures (lines 474-545): fold the per-section body
over the enumerated sections starting from the initial filesystem and
last_update = -1, then report completion when last_update is nonnegative
and now - last_update exceeds total_seconds of a 30-day timedelta
(lines 539-545). -/
def download_lectures (class_name : String)
    (sections : List (String × List (String × LectureMap)))
    (file_formats : List String) (overwrite skip_download : Bool)
    (section_filter lecture_filter : Option (String → Bool))
    (path : String) (verbose_dirs : Bool) (fs0 : FS) (now : Int) : DLResult :=
  let st := sections.enum.foldl
    (processSection class_name file_formats overwrite skip_download
      section_filter lecture_filter path verbose_dirs now)
    ⟨fs0, [], [], -1⟩
  ⟨st, decide (0 ≤ st.last_update) &&
       decide (now - st.last_update > total_seconds 30 0 0)⟩

end CourseraDL

namespace CourseraDL

theorem isError_bind {ε α β : Type} (x : Except ε α) (g : α → Except ε β)
    (h : isError x = true) : isError (x >>= g) = true := by
  cases x with
  | error e => rfl
  | ok a => simp [isError] at h

theorem isError_mapM_of_mem {α β : Type} (f : α → Except String β)
    (l : List α) (x : α) (hx : x ∈ l) (hf : isError (f x) = true) :
    isError (l.mapM f) = true := by
  induction l with
  | nil => cases hx
  | cons a as ih =>
    rw [List.mapM_cons]
    cases hx with
    | head => exact isError_bind _ _ hf
    | tail _ hmem =>
      cases hfa : f a with
      | error e => simp [Bind.bind, Except.bind, hfa, isError]
      | ok b =>
        have : isError (as.mapM f) = true := ih hmem
        simp only [Bind.bind, Except.bind, hfa]
        exact isError_bind _ _ this

theorem isError_parseSection (sname : String)
    (lects : List (String × List String)) (lp : String × List String)
    (hmem : lp ∈ lects) (hno : dictFind (buildLectureMap lp.2) "mp4" = none) :
    isError (parseSection sname lects) = true := by
  have herr : isError (parseLecture lp.1 lp.2) = true := by
    simp [parseLecture, hno, isError]
  have : isError (lects.mapM (fun p => parseLecture p.1 p.2)) = true :=
    isError_mapM_of_mem _ lects lp hmem herr
  exact isError_bind _ _ this

/-- C3: the syllabus parser rejects the whole course, with an error rather
than a per-lecture skip, whenever any parsed lecture's format-to-URL map
lacks an mp4 entry. -/
theorem parse_syllabus_rejects_missing_mp4
    (raw : List (String × List (String × List String))) (reverse : Bool)
    (h : ∃ sp ∈ raw, ∃ lp ∈ sp.2, dictFind (buildLectureMap lp.2) "mp4" = none) :
    isError (parse_syllabus raw reverse) = true := by
  obtain ⟨sp, hsp, lp, hlp, hno⟩ := h
  have hsec : isError (parseSection sp.1 sp.2) = true :=
    isError_parseSection sp.1 sp.2 lp hlp hno
  have : isError (raw.mapM (fun p => parseSection p.1 p.2)) = true :=
    isError_mapM_of_mem _ raw sp hsp hsec
  exact isError_bind _ _ this

/-- Witness for C3 at a one-section, one-lecture course whose sole anchor
yields the pdf format only. -/
theorem parse_syllabus_rejects_missing_mp4_witness :
    isError (parse_syllabus [("S", [("L", ["x.pdf"])])] false) = true :=
  parse_syllabus_rejects_missing_mp4 [("S", [("L", ["x.pdf"])])] false
    ⟨("S", [("L", ["x.pdf"])]), by decide,
     ("L", ["x.pdf"]), by decide, by decide⟩

/-- C1: contrary to the specified contract, write_cookie_file never returns
usable session credentials: lines 158-161 raise ClassNotFound for every
status code of the login POST, success included, and the assignment of the
session on line 163 is unreachable; in particular a successful login
(status 200) raises ClassNotFound with an Error message. -/
theorem write_cookie_file_always_raises :
    (∀ (className : String) (loginStatus : Nat),
      ∃ msg, write_cookie_file className loginStatus
        = .error (.classNotFound msg))
    ∧ write_cookie_file "saas" 200
        = .error (.classNotFound "Error 200 with saas") := by
  constructor
  · intro className loginStatus
    by_cases h : loginStatus = 404
    · exact ⟨className, by simp [write_cookie_file, h]⟩
    · exact ⟨"Error " ++ toString loginStatus ++ " with " ++ className,
        by simp [write_cookie_file, h]⟩
  · rfl

/-- C4: contrary to the specified write-through caching, get_syllabus with a
configured cache path and an absent cache file raises an IOError instead of
fetching and persisting, and no execution of get_syllabus ever performs the
cache write (the write on lines 372-374 is dead code). -/
theorem get_syllabus_no_write_through :
    get_syllabus (fun _ => none) "PAGE" (some "syllabus.html")
      = .error "IOError: No such file or directory"
    ∧ (∀ (fs : String → Option String) (fetched : String)
        (local_page : Option String),
        wroteCache (get_syllabus fs fetched local_page) = false) := by
  constructor
  · rfl
  · intro fs fetched local_page
    by_cases h : isTruthy local_page = true
    · simp only [get_syllabus, h, if_true]
      cases fs (local_page.getD "") <;> rfl
    · have h' : isTruthy local_page = false := by
        cases hh : isTruthy local_page
        · rfl
        · exact absurd hh h
      simp [get_syllabus, h', wroteCache]

/-- C9: with plain naming, empty output root and class name class, the
planner resolves the pdf resource of the lecture at position 1 named
Welcome inside the section at position 3 named Intro to the relative path
class/03_Intro/01_Welcome.pdf. -/
theorem planner_path_construction :
    (download_lectures "class"
      [("A", []), ("B", []), ("Intro", [("Welcome", [("pdf", "u")])])]
      ["pdf"] false false none none "" false ⟨[], []⟩ 0).state.events
    = [.transfer "u" "class/03_Intro/01_Welcome.pdf"] := by
  decide

/-- C2 counterexample: clean_filename is not idempotent.  On the input
consisting of two left parentheses, the letter a and a right parenthesis,
one application yields a single left parenthesis and a second application
yields the empty string; on the input nnbspbsp one application yields nbsp
and a second application yields the empty string. -/
theorem clean_filename_not_idempotent :
    clean_filename (clean_filename "((a)") ≠ clean_filename "((a)"
    ∧ clean_filename (clean_filename "nnbspbsp") ≠ clean_filename "nnbspbsp" := by
  decide

theorem dropWhile_eq_self_of_all {p : Char → Bool} :
    ∀ l : List Char, (∀ c ∈ l, p c = false) → l.dropWhile p = l := by
  intro l h
  cases l with
  | nil => rfl
  | cons a as =>
    have : p a = false := h a (List.mem_cons_self a as)
    simp [List.dropWhile, this]

theorem map_eq_self_of_fix {f : Char → Char} :
    ∀ l : List Char, (∀ c ∈ l, f c = c) → l.map f = l := by
  intro l h
  induction l with
  | nil => rfl
  | cons a as ih =>
    have ha : f a = a := h a (List.mem_cons_self a as)
    have has : ∀ c ∈ as, f c = c := fun c hc => h c (List.mem_cons_of_mem a hc)
    simp [ha, ih has]

theorem removeNbsp_cons_of_ne (c : Char) (rest : List Char)
    (hne : ∀ r : List Char, c = 'n' → rest = 'b' :: 's' :: 'p' :: r → False) :
    removeNbsp (c :: rest) = c :: removeNbsp rest := by
  rw [removeNbsp.eq_def]
  split
  · rename_i r heq
    injection heq with h1 h2
    exact (hne r h1 h2).elim
  · rename_i c2 rest2 hne2 heq
    injection heq with h1 h2
    rw [← h1, ← h2]
  · rename_i heq
    exact absurd heq (by simp)

theorem hasNbsp_cons_of_ne (c : Char) (rest : List Char)
    (hne : ∀ r : List Char, c = 'n' → rest = 'b' :: 's' :: 'p' :: r → False) :
    hasNbsp (c :: rest) = hasNbsp rest := by
  rw [hasNbsp.eq_def]
  split
  · rename_i r heq
    injection heq with h1 h2
    exact (hne r h1 h2).elim
  · rename_i c2 rest2 hne2 heq
    injection heq with h1 h2
    rw [← h2]
  · rename_i heq
    exact absurd heq (by simp)

theorem removeNbsp_eq_self_of_no_nbsp :
    ∀ l : List Char, hasNbsp l = false → removeNbsp l = l := by
  intro l
  induction l using removeNbsp.induct with
  | case1 rest ih => intro h; rw [hasNbsp.eq_def] at h; simp at h
  | case2 c rest hne ih =>
    intro h
    rw [hasNbsp_cons_of_ne c rest hne] at h
    rw [removeNbsp_cons_of_ne c rest hne, ih h]
  | case3 => intro _; rfl

theorem isPyWS_eq_false_of_valid (c : Char) (h : isValidChar c = true) :
    isPyWS c = false := by
  cases hws : isPyWS c
  · rfl
  · exfalso
    simp only [isPyWS, Bool.or_eq_true, decide_eq_true_eq] at hws
    rcases hws with ((((h1 | h1) | h1) | h1) | h1) | h1 <;> subst h1 <;>
      simp [isValidChar] at h

theorem clean_filename_chars_valid (s : String) :
    ∀ c ∈ (clean_filename s).data, isValidChar c = true := by
  intro c hc
  exact (List.mem_filter.mp hc).2

/-- C2 amended: clean_filename applied to one of its own outputs changes
nothing provided that output contains no left parenthesis and no occurrence
of the substring nbsp; under those two conditions the sanitizer is
idempotent.  (The counterexample shows both conditions are needed: a
surviving left parenthesis is removed by the second pass, and the
substring-removal of nbsp can recreate an nbsp occurrence that the second
pass removes.) -/
theorem clean_filename_idempotent_amended (s : String)
    (h1 : (clean_filename s).data.contains '(' = false)
    (h2 : hasNbsp (clean_filename s).data = false) :
    clean_filename (clean_filename s) = clean_filename s := by
  have hvalid : ∀ c ∈ (clean_filename s).data, isValidChar c = true :=
    clean_filename_chars_valid s
  have hnws : ∀ c ∈ (clean_filename s).data, isPyWS c = false :=
    fun c hc => isPyWS_eq_false_of_valid c (hvalid c hc)
  have eq1 : stripParenTail (clean_filename s).data = (clean_filename s).data := by
    unfold stripParenTail
    rw [h1]
    rfl
  have eq2 : pyStrip (clean_filename s).data = (clean_filename s).data := by
    unfold pyStrip
    rw [dropWhile_eq_self_of_all _ hnws]
    rw [dropWhile_eq_self_of_all _ (fun c hc => hnws c (List.mem_reverse.mp hc))]
    exact List.reverse_reverse _
  have eq3 : (clean_filename s).data.map (fun c => if c = ':' then '-' else c)
      = (clean_filename s).data := by
    apply map_eq_self_of_fix
    intro c hc
    have hv := hvalid c hc
    by_cases hcc : c = ':'
    · subst hcc; simp [isValidChar] at hv
    · simp [hcc]
  have eq4 : (clean_filename s).data.map (fun c => if c = ' ' then '_' else c)
      = (clean_filename s).data := by
    apply map_eq_self_of_fix
    intro c hc
    have hv := hvalid c hc
    by_cases hcc : c = ' '
    · subst hcc; simp [isValidChar] at hv
    · simp [hcc]
  have eq5 : removeNbsp (clean_filename s).data = (clean_filename s).data :=
    removeNbsp_eq_self_of_no_nbsp _ h2
  have eq6 : (clean_filename s).data.filter isValidChar = (clean_filename s).data :=
    List.filter_eq_self.mpr hvalid
  show (⟨List.filter isValidChar (removeNbsp
    (List.map (fun c => if c = ' ' then '_' else c)
      (List.map (fun c => if c = ':' then '-' else c)
        (pyStrip (stripParenTail (clean_filename s).data)))))⟩ : String)
    = clean_filename s
  rw [eq1, eq2, eq3, eq4, eq5, eq6]

/-- Witness for C2 amended: a typical scraped lecture title with a duration
annotation whose sanitized form contains neither a parenthesis nor an nbsp
occurrence. -/
theorem clean_filename_idempotent_amended_witness :
    clean_filename (clean_filename "My Lecture: Intro (12 min)")
      = clean_filename "My Lecture: Intro (12 min)" :=
  clean_filename_idempotent_amended "My Lecture: Intro (12 min)"
    (by decide) (by decide)

/-- C5 counterexample: the planner creates the section directory even when
every resource of the section is excluded by the format allow-list, so no
task needs to write: with one lecture offering only mp4 and the allow-list
containing only pdf, the directory is created while no transfer, touch or
skip happens. -/
theorem planner_mkdir_not_lazy :
    (download_lectures "c" [("A", [("X", [("mp4", "u")])])]
      ["pdf"] false false none none "" false ⟨[], []⟩ 0).state.dirsCreated
      = ["c/01_A"]
    ∧ (download_lectures "c" [("A", [("X", [("mp4", "u")])])]
      ["pdf"] false false none none "" false ⟨[], []⟩ 0).state.events
      = [] := by
  decide

theorem anchorSearch_none_of_no_pattern :
    ∀ l : List Char, l.contains '.' = false → containsFormatEq l = false →
      anchorSearch l = none := by
  intro l
  induction l with
  | nil => intro _ _; rfl
  | cons c rest ih =>
    intro hdot hfmt
    rw [List.contains_cons, Bool.or_eq_false_iff] at hdot
    have hc' : ¬(c = '.') := by
      intro hcc
      have := hdot.1
      rw [hcc] at this
      simp at this
    rw [containsFormatEq.eq_def] at hfmt
    simp only [Bool.or_eq_false_iff] at hfmt
    have htake : ¬((c :: rest).take 7 = "format=".data) := by
      intro hT
      have := hfmt.1
      rw [hT] at this
      simp at this
    unfold anchorSearch
    rw [if_neg hc', if_neg htake]
    exact ih hdot.2 hfmt.2

/-- C8: format extraction follows the two-pattern rule: the sample anchor
with a trailing dotted extension and query string yields mp4, the anchor
with a format= query parameter yields srt, the anchor nomatch yields no
value, and any anchor containing neither a dot nor the text format= yields
no value. -/
theorem get_anchor_format_cases :
    get_anchor_format "lecture/1.4/main/download.mp4?param=1" = some "mp4"
    ∧ get_anchor_format "x?format=srt" = some "srt"
    ∧ get_anchor_format "nomatch" = none
    ∧ ∀ s : String, s.data.contains '.' = false →
        containsFormatEq s.data = false → get_anchor_format s = none := by
  refine ⟨by decide, by decide, by decide, ?_⟩
  intro s hdot hfmt
  exact anchorSearch_none_of_no_pattern s.data hdot hfmt

/-- Witness for C8 at an anchor with neither a dot nor a format= text. -/
theorem get_anchor_format_cases_witness :
    get_anchor_format "nourl" = none :=
  get_anchor_format_cases.2.2.2 "nourl" (by decide) (by decide)

theorem matchTail_some (l : List Char) (w : String)
    (h : matchTail l = some w) :
    w.data = l.takeWhile isWordChar ∧ w.data ≠ [] := by
  unfold matchTail at h
  by_cases he : (l.takeWhile isWordChar).isEmpty = true
  · rw [if_pos he] at h
    cases h
  · rw [if_neg he] at h
    have hne : l.takeWhile isWordChar ≠ [] := by
      intro hnil
      rw [hnil] at he
      exact he rfl
    constructor
    · revert h
      split
      · intro h; cases h; exact rfl
      · intro h; cases h; exact rfl
      · intro h
        split at h
        · cases h; exact rfl
        · cases h
      · intro h; cases h
    · intro hnil
      revert h
      split <;> intro h
      · cases h; exact hne hnil
      · cases h; exact hne hnil
      · split at h
        · cases h; exact hne hnil
        · cases h
      · cases h

theorem mem_takeWhile_isWordChar (l : List Char) (c : Char)
    (h : c ∈ l.takeWhile isWordChar) : isWordChar c = true := by
  induction l with
  | nil => cases h
  | cons a as ih =>
    rw [List.takeWhile_cons] at h
    by_cases ha : isWordChar a = true
    · rw [if_pos ha] at h
      cases h with
      | head => exact ha
      | tail _ h2 => exact ih h2
    · rw [if_neg ha] at h
      cases h

theorem anchorSearch_some (w : String) :
    ∀ l : List Char, anchorSearch l = some w →
      w.data ≠ [] ∧ ∀ c ∈ w.data, isWordChar c = true := by
  intro l
  induction l with
  | nil => intro h; cases h
  | cons c rest ih =>
    intro h
    unfold anchorSearch at h
    by_cases hc : c = '.'
    · rw [if_pos hc] at h
      cases hmt : matchTail rest with
      | some w2 =>
        rw [hmt] at h
        have hww : w2 = w := Option.some.inj h
        subst hww
        obtain ⟨hw, hne⟩ := matchTail_some rest w2 hmt
        exact ⟨hne, fun ch hch => mem_takeWhile_isWordChar rest ch (hw ▸ hch)⟩
      | none =>
        rw [hmt] at h
        by_cases ht : (c :: rest).take 7 = "format=".data
        · rw [if_pos ht] at h
          cases hmt2 : matchTail ((c :: rest).drop 7) with
          | some w2 =>
            rw [hmt2] at h
            have hww : w2 = w := Option.some.inj h
            subst hww
            obtain ⟨hw, hne⟩ := matchTail_some _ w2 hmt2
            exact ⟨hne, fun ch hch => mem_takeWhile_isWordChar _ ch (hw ▸ hch)⟩
          | none =>
            rw [hmt2] at h
            exact ih h
        · rw [if_neg ht] at h
          exact ih h
    · rw [if_neg hc] at h
      by_cases ht : (c :: rest).take 7 = "format=".data
      · rw [if_pos ht] at h
        cases hmt2 : matchTail ((c :: rest).drop 7) with
        | some w2 =>
          rw [hmt2] at h
          have hww : w2 = w := Option.some.inj h
          subst hww
          obtain ⟨hw, hne⟩ := matchTail_some _ w2 hmt2
          exact ⟨hne, fun ch hch => mem_takeWhile_isWordChar _ ch (hw ▸ hch)⟩
        | none =>
          rw [hmt2] at h
          exact ih h
      · rw [if_neg ht] at h
        exact ih h

/-- The timestamp the planner observes for an event: transfers and touches
happen at time now, a skip contributes the modification time it read. -/
def eventValue (now : Int) : DLEvent → Int
  | .transfer _ _ => now
  | .touch _ => now
  | .skip _ m => m

/-- Whether the event wrote a file this run. -/
def isWrite : DLEvent → Bool
  | .transfer _ _ => true
  | .touch _ => true
  | .skip _ _ => false

/-- One step of the last_update accumulator of download_lectures: a write
assigns now (lines 532), a skip takes the max with the read modification
time (line 537). -/
def luStep (now : Int) (a : Int) (e : DLEvent) : Int :=
  if isWrite e then now else max a (eventValue now e)

/-- The last_update value determined by an event list, starting from the
-1 of line 493. -/
def luOf (now : Int) (es : List DLEvent) : Int :=
  es.foldl (luStep now) (-1)

/-- The maximum of the observed timestamps of a run, none when no file was
observed. -/
def maxObserved (now : Int) (es : List DLEvent) : Option Int :=
  match es.map (eventValue now) with
  | [] => none
  | v :: vs => some (vs.foldl max v)

theorem contains_append_left {l1 l2 : List String} {a : String}
    (h : l1.contains a = true) : (l1 ++ l2).contains a = true := by
  simp only [List.contains_eq_any_beq] at h ⊢
  rw [List.any_append, h, Bool.true_or]

theorem contains_append_self (l : List String) (a : String) :
    (l ++ [a]).contains a = true := by
  simp only [List.contains_eq_any_beq]
  rw [List.any_append]
  simp

theorem setFile_map_fst_cases (fs : FS) (q : String) (t : Int) :
    (setFile fs q t).files.map Prod.fst = fs.files.map Prod.fst
    ∨ (setFile fs q t).files.map Prod.fst = fs.files.map Prod.fst ++ [q] := by
  unfold setFile
  by_cases hc : (fs.files.map Prod.fst).contains q = true
  · left
    rw [if_pos hc]
    show (fs.files.map _).map Prod.fst = _
    rw [List.map_map]
    apply List.map_congr_left
    intro x _
    show Prod.fst (if x.1 == q then (x.1, t) else x) = x.1
    split <;> rfl
  · right
    rw [if_neg hc]
    show (fs.files ++ [(q, t)]).map Prod.fst = _
    rw [List.map_append]
    rfl

theorem setFile_dirs (fs : FS) (q : String) (t : Int) :
    (setFile fs q t).dirs = fs.dirs := by
  unfold setFile
  split <;> rfl

theorem fsExists_setFile_mono (fs : FS) (p q : String) (t : Int)
    (h : fsExists fs p = true) : fsExists (setFile fs q t) p = true := by
  unfold fsExists at h ⊢
  rw [setFile_dirs]
  rw [Bool.or_eq_true] at h ⊢
  rcases h with h | h
  · exact Or.inl h
  · right
    rcases setFile_map_fst_cases fs q t with hm | hm
    · rw [hm]; exact h
    · rw [hm]; exact contains_append_left h

theorem fsExists_addDir_self (fs : FS) (p : String) :
    fsExists (addDir fs p) p = true := by
  unfold fsExists addDir
  rw [Bool.or_eq_true]
  exact Or.inl (contains_append_self fs.dirs p)

theorem processResource_dirsCreated (overwrite skip_download : Bool)
    (now : Int) (sec : String) (lecnum : Nat) (lecname : String)
    (st : DLState) (fu : String × String) :
    (processResource overwrite skip_download now sec lecnum lecname st fu).dirsCreated
      = st.dirsCreated := by
  dsimp only [processResource]
  split
  · split <;> rfl
  · rfl

theorem processResource_fsExists (overwrite skip_download : Bool)
    (now : Int) (sec : String) (lecnum : Nat) (lecname : String)
    (st : DLState) (fu : String × String) (p : String)
    (h : fsExists st.fs p = true) :
    fsExists (processResource overwrite skip_download now sec lecnum lecname st fu).fs p
      = true := by
  dsimp only [processResource]
  split
  · split
    · exact fsExists_setFile_mono _ _ _ _ h
    · exact fsExists_setFile_mono _ _ _ _ h
  · exact h

theorem foldResources_dirsCreated (overwrite skip_download : Bool)
    (now : Int) (sec : String) (lecnum : Nat) (lecname : String) :
    ∀ (rs : List (String × String)) (st : DLState),
      (rs.foldl (processResource overwrite skip_download now sec lecnum lecname) st).dirsCreated
        = st.dirsCreated := by
  intro rs
  induction rs with
  | nil => intro st; rfl
  | cons r rest ih =>
    intro st
    rw [List.foldl_cons, ih, processResource_dirsCreated]

theorem foldResources_fsExists (overwrite skip_download : Bool)
    (now : Int) (sec : String) (lecnum : Nat) (lecname : String) (p : String) :
    ∀ (rs : List (String × String)) (st : DLState), fsExists st.fs p = true →
      fsExists ((rs.foldl (processResource overwrite skip_download now sec lecnum lecname) st)).fs p
        = true := by
  intro rs
  induction rs with
  | nil => intro st h; exact h
  | cons r rest ih =>
    intro st h
    rw [List.foldl_cons]
    exact ih _ (processResource_fsExists _ _ _ _ _ _ _ _ _ h)

theorem processLecture_not_passing (file_formats : List String)
    (overwrite skip_download : Bool) (lecture_filter : Option (String → Bool))
    (now : Int) (sec : String) (st : DLState)
    (lec : Nat × (String × LectureMap))
    (h : passesFilter lecture_filter lec.2.1 = false) :
    processLecture file_formats overwrite skip_download lecture_filter now sec st lec
      = st := by
  unfold processLecture
  rw [h]
  rfl

theorem processLecture_existing (file_formats : List String)
    (overwrite skip_download : Bool) (lecture_filter : Option (String → Bool))
    (now : Int) (sec : String) (st : DLState)
    (lec : Nat × (String × LectureMap))
    (h : fsExists st.fs sec = true) :
    (processLecture file_formats overwrite skip_download lecture_filter now sec st lec).dirsCreated
      = st.dirsCreated
    ∧ fsExists (processLecture file_formats overwrite skip_download lecture_filter now sec st lec).fs sec
      = true := by
  unfold processLecture
  cases hp : passesFilter lecture_filter lec.2.1 with
  | false => exact ⟨rfl, h⟩
  | true =>
    simp only [Bool.not_true, Bool.false_eq_true, if_false, h, Bool.not_true]
    constructor
    · exact foldResources_dirsCreated _ _ _ _ _ _ _ _
    · exact foldResources_fsExists _ _ _ _ _ _ _ _ _ h

theorem processLecture_creating (file_formats : List String)
    (overwrite skip_download : Bool) (lecture_filter : Option (String → Bool))
    (now : Int) (sec : String) (st : DLState)
    (lec : Nat × (String × LectureMap))
    (hp : passesFilter lecture_filter lec.2.1 = true)
    (h : fsExists st.fs sec = false) :
    (processLecture file_formats overwrite skip_download lecture_filter now sec st lec).dirsCreated
      = st.dirsCreated ++ [sec]
    ∧ fsExists (processLecture file_formats overwrite skip_download lecture_filter now sec st lec).fs sec
      = true := by
  unfold processLecture
  simp only [hp, Bool.not_true, Bool.false_eq_true, if_false, h, Bool.not_false, if_true]
  constructor
  · rw [foldResources_dirsCreated]
  · exact foldResources_fsExists _ _ _ _ _ _ _ _ _ (fsExists_addDir_self st.fs sec)

theorem foldLectures_existing (file_formats : List String)
    (overwrite skip_download : Bool) (lecture_filter : Option (String → Bool))
    (now : Int) (sec : String) :
    ∀ (ps : List (Nat × (String × LectureMap))) (st : DLState),
      fsExists st.fs sec = true →
      (ps.foldl (processLecture file_formats overwrite skip_download lecture_filter now sec) st).dirsCreated
        = st.dirsCreated := by
  intro ps
  induction ps with
  | nil => intro st _; rfl
  | cons p rest ih =>
    intro st h
    rw [List.foldl_cons]
    obtain ⟨hd, hf⟩ :=
      processLecture_existing file_formats overwrite skip_download lecture_filter now sec st p h
    rw [ih _ hf, hd]

theorem foldLectures_fresh (file_formats : List String)
    (overwrite skip_download : Bool) (lecture_filter : Option (String → Bool))
    (now : Int) (sec : String) :
    ∀ (ps : List (Nat × (String × LectureMap))) (st : DLState),
      fsExists st.fs sec = false →
      (ps.foldl (processLecture file_formats overwrite skip_download lecture_filter now sec) st).dirsCreated
        = (if ps.any (fun p => passesFilter lecture_filter p.2.1)
           then st.dirsCreated ++ [sec] else st.dirsCreated) := by
  intro ps
  induction ps with
  | nil => intro st _; rfl
  | cons p rest ih =>
    intro st h
    rw [List.foldl_cons, List.any_cons]
    cases hp : passesFilter lecture_filter p.2.1 with
    | false =>
      rw [processLecture_not_passing file_formats overwrite skip_download
        lecture_filter now sec st p hp]
      rw [ih st h]
      rfl
    | true =>
      obtain ⟨hd, hf⟩ := processLecture_creating file_formats overwrite
        skip_download lecture_filter now sec st p hp h
      rw [foldLectures_existing file_formats overwrite skip_download
        lecture_filter now sec rest _ hf, hd]
      rfl

theorem enum_any_eq_any (lecture_filter : Option (String → Bool)) :
    ∀ (l : List (String × LectureMap)) (n : Nat),
      (l.enumFrom n).any (fun p => passesFilter lecture_filter p.2.1)
        = l.any (fun q => passesFilter lecture_filter q.1) := by
  intro l
  induction l with
  | nil => intro n; rfl
  | cons a as ih =>
    intro n
    rw [List.enumFrom_cons, List.any_cons, List.any_cons, ih]

/-- C5 amended: over a single-section course, the planner creates the
section directory exactly when the section passes the section filter, at
least one lecture passes the lecture filter, and the directory does not
already exist; the format allow-list, the overwrite flag, the skip-download
flag and the presence of the destination files play no role in the
creation. -/
theorem planner_mkdir_amended (class_name sname path : String)
    (lects : List (String × LectureMap)) (file_formats : List String)
    (overwrite skip_download verbose_dirs : Bool)
    (section_filter lecture_filter : Option (String → Bool))
    (fs0 : FS) (now : Int) :
    (download_lectures class_name [(sname, lects)] file_formats overwrite
      skip_download section_filter lecture_filter path verbose_dirs fs0 now).state.dirsCreated
    = if passesFilter section_filter sname
         && lects.any (fun q => passesFilter lecture_filter q.1)
         && !fsExists fs0 (pathJoin (pathJoin path class_name)
              (format_section class_name verbose_dirs 1 sname))
      then [pathJoin (pathJoin path class_name)
              (format_section class_name verbose_dirs 1 sname)]
      else [] := by
  unfold download_lectures
  show (processSection class_name file_formats overwrite skip_download
      section_filter lecture_filter path verbose_dirs now
      ⟨fs0, [], [], -1⟩ (0, (sname, lects))).dirsCreated = _
  unfold processSection
  cases hs : passesFilter section_filter sname with
  | false =>
    simp only [hs, Bool.not_false, if_true, Bool.false_and]
    rfl
  | true =>
    simp only [hs, Bool.not_true, Bool.false_eq_true, if_false, Bool.true_and]
    simp only [Nat.zero_add]
    cases he : fsExists fs0 (pathJoin (pathJoin path class_name)
        (format_section class_name verbose_dirs 1 sname)) with
    | true =>
      rw [foldLectures_existing file_formats overwrite skip_download
        lecture_filter now _ _ _ he]
      simp
    | false =>
      rw [foldLectures_fresh file_formats overwrite skip_download
        lecture_filter now _ _ _ he]
      rw [show (lects.enum).any (fun p => passesFilter lecture_filter p.2.1)
          = lects.any (fun q => passesFilter lecture_filter q.1)
          from enum_any_eq_any lecture_filter lects 0]
      cases hany : lects.any (fun q => passesFilter lecture_filter q.1) with
      | false => simp
      | true => simp

theorem mapM_ok_eq_map {α β : Type} (f : α → Except String β) (g : α → β)
    (hfg : ∀ x y, f x = .ok y → y = g x) :
    ∀ (l : List α) (ys : List β), l.mapM f = .ok ys → ys = l.map g := by
  intro l
  induction l with
  | nil =>
    intro ys h
    rw [List.mapM_nil] at h
    have : ([] : List β) = ys := Except.ok.inj h
    rw [← this]
    rfl
  | cons a as ih =>
    intro ys h
    rw [List.mapM_cons] at h
    cases hfa : f a with
    | error e =>
      rw [hfa] at h
      simp [Bind.bind, Except.bind] at h
    | ok b =>
      rw [hfa] at h
      cases hms : as.mapM f with
      | error e =>
        rw [hms] at h
        simp [Bind.bind, Except.bind] at h
      | ok bs =>
        rw [hms] at h
        have hcons : b :: bs = ys := Except.ok.inj h
        rw [← hcons, List.map_cons, hfg a b hfa, ih bs hms]

theorem parseLecture_ok_total (p : String × List String)
    (y : String × LectureMap) (h : parseLecture p.1 p.2 = .ok y) :
    y = parseLectureTotal p.1 p.2 := by
  unfold parseLecture at h
  cases hd : dictFind (buildLectureMap p.2) "mp4" with
  | some v =>
    rw [hd] at h
    exact (Except.ok.inj h).symm
  | none =>
    rw [hd] at h
    cases h

theorem parseSection_ok_total (p : String × List (String × List String))
    (y : String × List (String × LectureMap))
    (h : parseSection p.1 p.2 = .ok y) : y = parseSectionTotal p := by
  unfold parseSection at h
  cases hms : p.2.mapM (fun q => parseLecture q.1 q.2) with
  | error e =>
    rw [hms] at h
    simp [Bind.bind, Except.bind] at h
  | ok ls =>
    rw [hms] at h
    have hy : (clean_filename p.1, ls) = y := Except.ok.inj h
    have hls : ls = p.2.map (fun q => parseLectureTotal q.1 q.2) :=
      mapM_ok_eq_map _ _ (fun x yy hh => parseLecture_ok_total x yy hh) p.2 ls hms
    rw [← hy, hls]
    rfl

/-- C7: a successful parse with the reverse option off returns the sections
in document order, each with its lectures mapped in document order
(parseSectionTotal keeps the lecture list order), and the same parse with
the reverse option on returns exactly the reversed section list, each
section keeping its own lecture list unchanged. -/
theorem parse_syllabus_order (raw : List (String × List (String × List String)))
    (ss : List (String × List (String × LectureMap)))
    (h : parse_syllabus raw false = .ok ss) :
    ss = raw.map parseSectionTotal ∧ parse_syllabus raw true = .ok ss.reverse := by
  unfold parse_syllabus at h ⊢
  cases hms : raw.mapM (fun p => parseSection p.1 p.2) with
  | error e =>
    rw [hms] at h
    simp [Bind.bind, Except.bind] at h
  | ok secs =>
    rw [hms] at h
    have hss : (if !secs.isEmpty && false then secs.reverse else secs) = ss :=
      Except.ok.inj h
    rw [Bool.and_false, if_neg Bool.false_ne_true] at hss
    constructor
    · rw [← hss]
      exact mapM_ok_eq_map _ _ (fun x yy hh => parseSection_ok_total x yy hh) raw secs hms
    · show Except.ok (if !secs.isEmpty && true then secs.reverse else secs)
        = Except.ok ss.reverse
      rw [Bool.and_true, ← hss]
      cases secs with
      | nil => rfl
      | cons a as => rfl

/-- Witness for C7 at a concrete two-section course. -/
theorem parse_syllabus_order_witness :
    [("S1", [("L1", [("mp4", "a.mp4")])]), ("S2", [("L2", [("mp4", "b.mp4")])])]
      = [("S1", [("L1", ["a.mp4"])]), ("S2", [("L2", ["b.mp4"])])].map parseSectionTotal
    ∧ parse_syllabus [("S1", [("L1", ["a.mp4"])]), ("S2", [("L2", ["b.mp4"])])] true
      = .ok [("S1", [("L1", [("mp4", "a.mp4")])]),
             ("S2", [("L2", [("mp4", "b.mp4")])])].reverse :=
  parse_syllabus_order
    [("S1", [("L1", ["a.mp4"])]), ("S2", [("L2", ["b.mp4"])])]
    [("S1", [("L1", [("mp4", "a.mp4")])]), ("S2", [("L2", [("mp4", "b.mp4")])])]
    (by rfl)

/-- C10: whenever get_anchor_format returns a value, that value is a
nonempty string of word characters (letters, digits, underscore); in
particular it never contains a dot, a slash, a question mark or an equals
sign. -/
theorem get_anchor_format_value_word_chars (s w : String)
    (h : get_anchor_format s = some w) :
    1 ≤ w.length ∧ (∀ c ∈ w.data, isWordChar c = true)
    ∧ '.' ∉ w.data ∧ '/' ∉ w.data ∧ '?' ∉ w.data ∧ '=' ∉ w.data := by
  obtain ⟨hne, hall⟩ := anchorSearch_some w s.data h
  have hlen : 1 ≤ w.length := by
    have h0 : w.data.length ≠ 0 := fun h0 => hne (List.eq_nil_of_length_eq_zero h0)
    exact Nat.pos_of_ne_zero h0
  refine ⟨hlen, hall, ?_, ?_, ?_, ?_⟩ <;>
    intro hmem <;> have := hall _ hmem <;> simp [isWordChar] at this

/-- Witness for C10 at the anchor a.mp4, whose extracted format is mp4. -/
theorem get_anchor_format_value_word_chars_witness :
    1 ≤ ("mp4" : String).length
    ∧ (∀ c ∈ ("mp4" : String).data, isWordChar c = true)
    ∧ '.' ∉ ("mp4" : String).data ∧ '/' ∉ ("mp4" : String).data
    ∧ '?' ∉ ("mp4" : String).data ∧ '=' ∉ ("mp4" : String).data :=
  get_anchor_format_value_word_chars "a.mp4" "mp4" (by decide)

theorem le_foldl_max (l : List Int) : ∀ a : Int, a ≤ l.foldl max a := by
  induction l with
  | nil => intro a; exact le_refl a
  | cons b t ih =>
    intro a
    rw [List.foldl_cons]
    exact le_trans (le_max_left a b) (ih (max a b))

theorem mem_le_foldl_max (l : List Int) :
    ∀ (a v : Int), v ∈ l → v ≤ l.foldl max a := by
  induction l with
  | nil => intro a v hv; cases hv
  | cons b t ih =>
    intro a v hv
    rw [List.foldl_cons]
    cases hv with
    | head => exact le_trans (le_max_right a b) (le_foldl_max t (max a b))
    | tail _ hm => exact ih (max a b) v hm

theorem foldl_luStep_no_write (now : Int) :
    ∀ (es : List DLEvent) (a : Int), (∀ e ∈ es, isWrite e = false) →
      es.foldl (luStep now) a = (es.map (eventValue now)).foldl max a := by
  intro es
  induction es with
  | nil => intro a _; rfl
  | cons e t ih =>
    intro a h
    rw [List.foldl_cons, List.map_cons, List.foldl_cons]
    have he : isWrite e = false := h e (List.mem_cons_self e t)
    have ht : ∀ x ∈ t, isWrite x = false :=
      fun x hx => h x (List.mem_cons_of_mem e hx)
    rw [show luStep now a e = max a (eventValue now e) by
      unfold luStep; rw [he]; rfl]
    exact ih (max a (eventValue now e)) ht

theorem foldl_luStep_ge (now : Int) :
    ∀ (es : List DLEvent) (a : Int), now ≤ a →
      now ≤ es.foldl (luStep now) a := by
  intro es
  induction es with
  | nil => intro a h; exact h
  | cons e t ih =>
    intro a h
    rw [List.foldl_cons]
    apply ih
    unfold luStep
    by_cases hw : isWrite e = true
    · rw [if_pos hw]
    · rw [if_neg hw]
      exact le_trans h (le_max_left a (eventValue now e))

theorem foldl_luStep_ge_of_write (now : Int) :
    ∀ (es : List DLEvent) (a : Int), (∃ e ∈ es, isWrite e = true) →
      now ≤ es.foldl (luStep now) a := by
  intro es
  induction es with
  | nil => intro a h; obtain ⟨e, he, _⟩ := h; cases he
  | cons e t ih =>
    intro a h
    rw [List.foldl_cons]
    obtain ⟨e0, he0, hw0⟩ := h
    cases he0 with
    | head =>
      rw [show luStep now a e = now by unfold luStep; rw [hw0]; rfl]
      exact foldl_luStep_ge now t now (le_refl now)
    | tail _ hm => exact ih (luStep now a e) ⟨e0, hm, hw0⟩

/-- The completion test of lines 541-545 in terms of the maximum observed
timestamp, for event lists whose observed values are nonnegative. -/
theorem lu_iff_maxObserved (now T : Int) (hT : 0 ≤ T) (es : List DLEvent)
    (hvals : ∀ e ∈ es, 0 ≤ eventValue now e) :
    (0 ≤ luOf now es ∧ now - luOf now es > T)
      ↔ ∃ m, maxObserved now es = some m ∧ now - m > T := by
  cases es with
  | nil =>
    constructor
    · intro h
      have hl : luOf now ([] : List DLEvent) = -1 := rfl
      rw [hl] at h
      exact absurd h.1 (by decide)
    · intro h
      obtain ⟨m, hm, _⟩ := h
      cases hm
  | cons e t =>
    by_cases hW : ∃ x ∈ e :: t, isWrite x = true
    · have hlu : now ≤ luOf now (e :: t) :=
        foldl_luStep_ge_of_write now (e :: t) (-1) hW
      constructor
      · intro h
        exfalso
        have h1 : now - luOf now (e :: t) ≤ 0 := by omega
        omega
      · intro h
        exfalso
        obtain ⟨m, hm, hgt⟩ := h
        obtain ⟨e0, he0, hw0⟩ := hW
        have hvm : eventValue now e0 = now := by
          cases e0 with
          | transfer u p => rfl
          | touch p => rfl
          | skip p mt => simp [isWrite] at hw0
        have hmem : eventValue now e0 ∈ (e :: t).map (eventValue now) :=
          List.mem_map_of_mem (eventValue now) he0
        rw [hvm] at hmem
        unfold maxObserved at hm
        rw [List.map_cons] at hm hmem
        have hm' : (t.map (eventValue now)).foldl max (eventValue now e) = m :=
          Option.some.inj hm
        have hle : now ≤ m := by
          rw [← hm']
          rcases List.mem_cons.mp hmem with hcase | hcase
          · exact le_trans (le_of_eq hcase)
              (le_foldl_max (t.map (eventValue now)) (eventValue now e))
          · exact mem_le_foldl_max (t.map (eventValue now)) (eventValue now e) now hcase
        omega
    · have hnw : ∀ x ∈ e :: t, isWrite x = false := by
        intro x hx
        cases hb : isWrite x
        · rfl
        · exact absurd ⟨x, hx, hb⟩ hW
      have hfold : luOf now (e :: t)
          = ((e :: t).map (eventValue now)).foldl max (-1) :=
        foldl_luStep_no_write now (e :: t) (-1) hnw
      rw [List.map_cons, List.foldl_cons] at hfold
      have hv0 : 0 ≤ eventValue now e := hvals e (List.mem_cons_self e t)
      have hmax0 : max (-1 : Int) (eventValue now e) = eventValue now e :=
        max_eq_right (by omega)
      rw [hmax0] at hfold
      have hmdef : maxObserved now (e :: t)
          = some ((t.map (eventValue now)).foldl max (eventValue now e)) := by
        unfold maxObserved
        rw [List.map_cons]
      have hm0 : 0 ≤ (t.map (eventValue now)).foldl max (eventValue now e) :=
        le_trans hv0 (le_foldl_max (t.map (eventValue now)) (eventValue now e))
      constructor
      · intro h
        refine ⟨(t.map (eventValue now)).foldl max (eventValue now e), hmdef, ?_⟩
        rw [hfold] at h
        exact h.2
      · intro h
        obtain ⟨m, hm, hgt⟩ := h
        rw [hmdef] at hm
        have hmm : (t.map (eventValue now)).foldl max (eventValue now e) = m :=
          Option.some.inj hm
        rw [hfold, hmm]
        exact ⟨hmm ▸ hm0, hgt⟩

/-- Per-state invariant of the planner run: last_update is determined by
the event list, all recorded modification times are nonnegative, and all
observed event values are nonnegative. -/
def Inv (now : Int) (st : DLState) : Prop :=
  st.last_update = luOf now st.events
  ∧ (∀ q ∈ st.fs.files, 0 ≤ q.2)
  ∧ (∀ e ∈ st.events, 0 ≤ eventValue now e)

theorem setFile_files_nonneg (fs : FS) (p : String) (t : Int)
    (hfs : ∀ q ∈ fs.files, 0 ≤ q.2) (ht : 0 ≤ t) :
    ∀ q ∈ (setFile fs p t).files, 0 ≤ q.2 := by
  unfold setFile
  split
  · intro q hq
    obtain ⟨x, hx, hfx⟩ := List.mem_map.mp hq
    rw [← hfx]
    split
    · exact ht
    · exact hfs x hx
  · intro q hq
    rcases List.mem_append.mp hq with h | h
    · exact hfs q h
    · rw [List.mem_singleton.mp h]
      exact ht

theorem getmtime_nonneg (fs : FS) (p : String)
    (hfs : ∀ q ∈ fs.files, 0 ≤ q.2) : 0 ≤ getmtime fs p := by
  unfold getmtime
  cases hf : fs.files.find? (fun q => q.1 == p) with
  | some q => exact hfs q (List.mem_of_find?_eq_some hf)
  | none => exact le_refl 0

theorem luOf_append (now : Int) (es : List DLEvent) (e : DLEvent) :
    luOf now (es ++ [e]) = luStep now (luOf now es) e := by
  unfold luOf
  rw [List.foldl_append]
  rfl

theorem eventsNonneg_append (now : Int) (es : List DLEvent) (e : DLEvent)
    (h : ∀ x ∈ es, 0 ≤ eventValue now x) (he : 0 ≤ eventValue now e) :
    ∀ x ∈ es ++ [e], 0 ≤ eventValue now x := by
  intro x hx
  rcases List.mem_append.mp hx with hx | hx
  · exact h x hx
  · rw [List.mem_singleton.mp hx]
    exact he

theorem Inv_processResource (overwrite skip_download : Bool) (now : Int)
    (sec : String) (lecnum : Nat) (lecname : String) (st : DLState)
    (fu : String × String) (hnow : 0 ≤ now) (hinv : Inv now st) :
    Inv now (processResource overwrite skip_download now sec lecnum lecname st fu) := by
  obtain ⟨hlu, hfs, hev⟩ := hinv
  dsimp only [processResource]
  split
  · split
    · refine ⟨?_, setFile_files_nonneg _ _ _ hfs hnow, ?_⟩
      · show now = luOf now (st.events ++ [.transfer fu.2 _])
        rw [luOf_append]
        rfl
      · exact eventsNonneg_append now st.events _ hev hnow
    · refine ⟨?_, setFile_files_nonneg _ _ _ hfs hnow, ?_⟩
      · show now = luOf now (st.events ++ [.touch _])
        rw [luOf_append]
        rfl
      · exact eventsNonneg_append now st.events _ hev hnow
  · refine ⟨?_, hfs, ?_⟩
    · show max st.last_update (getmtime st.fs _) = luOf now (st.events ++ [.skip _ _])
      rw [luOf_append, hlu]
      rfl
    · exact eventsNonneg_append now st.events _ hev (getmtime_nonneg _ _ hfs)

theorem Inv_foldResources (overwrite skip_download : Bool) (now : Int)
    (sec : String) (lecnum : Nat) (lecname : String) (hnow : 0 ≤ now) :
    ∀ (rs : List (String × String)) (st : DLState), Inv now st →
      Inv now (rs.foldl (processResource overwrite skip_download now sec lecnum lecname) st) := by
  intro rs
  induction rs with
  | nil => intro st h; exact h
  | cons r t ih =>
    intro st h
    rw [List.foldl_cons]
    exact ih _ (Inv_processResource _ _ _ _ _ _ _ _ hnow h)

theorem Inv_processLecture (file_formats : List String)
    (overwrite skip_download : Bool) (lecture_filter : Option (String → Bool))
    (now : Int) (sec : String) (st : DLState)
    (lec : Nat × (String × LectureMap)) (hnow : 0 ≤ now) (hinv : Inv now st) :
    Inv now (processLecture file_formats overwrite skip_download lecture_filter now sec st lec) := by
  unfold processLecture
  split
  · exact hinv
  · apply Inv_foldResources _ _ _ _ _ _ hnow
    split
    · exact ⟨hinv.1, hinv.2.1, hinv.2.2⟩
    · exact hinv

theorem Inv_processSection (class_name : String) (file_formats : List String)
    (overwrite skip_download : Bool)
    (section_filter lecture_filter : Option (String → Bool))
    (path : String) (verbose_dirs : Bool) (now : Int) (st : DLState)
    (sp : Nat × (String × List (String × LectureMap)))
    (hnow : 0 ≤ now) (hinv : Inv now st) :
    Inv now (processSection class_name file_formats overwrite skip_download
      section_filter lecture_filter path verbose_dirs now st sp) := by
  unfold processSection
  split
  · exact hinv
  · generalize (sp.2.2).enum = ps
    induction ps generalizing st with
    | nil => exact hinv
    | cons p t ih =>
      rw [List.foldl_cons]
      exact ih _ (Inv_processLecture _ _ _ _ _ _ _ _ hnow hinv)

theorem Inv_download_lectures (class_name : String)
    (sections : List (String × List (String × LectureMap)))
    (file_formats : List String) (overwrite skip_download : Bool)
    (section_filter lecture_filter : Option (String → Bool))
    (path : String) (verbose_dirs : Bool) (fs0 : FS) (now : Int)
    (hnow : 0 ≤ now) (hfs : ∀ q ∈ fs0.files, 0 ≤ q.2) :
    Inv now (download_lectures class_name sections file_formats overwrite
      skip_download section_filter lecture_filter path verbose_dirs fs0 now).state := by
  unfold download_lectures
  show Inv now (sections.enum.foldl _ ⟨fs0, [], [], -1⟩)
  have h0 : Inv now ⟨fs0, [], [], -1⟩ := ⟨rfl, hfs, by intro e he; cases he⟩
  generalize sections.enum = sps
  induction sps generalizing fs0 with
  | nil => exact h0
  | cons sp t ih =>
    rw [List.foldl_cons]
    have h1 := Inv_processSection class_name file_formats overwrite
      skip_download section_filter lecture_filter path verbose_dirs now
      ⟨fs0, [], [], -1⟩ sp hnow h0
    generalize hst : processSection class_name file_formats overwrite
      skip_download section_filter lecture_filter path verbose_dirs now
      ⟨fs0, [], [], -1⟩ sp = st1 at h1
    clear hst h0 ih
    induction t generalizing st1 with
    | nil => exact h1
    | cons q r ihr =>
      rw [List.foldl_cons]
      exact ihr _ (Inv_processSection class_name file_formats overwrite
        skip_download section_filter lecture_filter path verbose_dirs now
        st1 q hnow h1)

/-- C6: with a nonnegative clock and nonnegative modification times on the
initial filesystem, download_lectures reports completion exactly when at
least one file was observed (transferred, touched, or skipped as already
present) and the maximum of the observed timestamps (time of this run for
transferred and touched files, recorded modification time for skipped
files) is more than 30 days before now; in particular zero observed files
report not complete. -/
theorem download_lectures_completion (class_name : String)
    (sections : List (String × List (String × LectureMap)))
    (file_formats : List String) (overwrite skip_download : Bool)
    (section_filter lecture_filter : Option (String → Bool))
    (path : String) (verbose_dirs : Bool) (fs0 : FS) (now : Int)
    (hnow : 0 ≤ now) (hfs : ∀ q ∈ fs0.files, 0 ≤ q.2) :
    (download_lectures class_name sections file_formats overwrite
      skip_download section_filter lecture_filter path verbose_dirs fs0 now).completed = true
    ↔ ∃ m, maxObserved now (download_lectures class_name sections file_formats
        overwrite skip_download section_filter lecture_filter path verbose_dirs
        fs0 now).state.events = some m
      ∧ now - m > total_seconds 30 0 0 := by
  obtain ⟨hlu, hfsr, hev⟩ := Inv_download_lectures class_name sections
    file_formats overwrite skip_download section_filter lecture_filter path
    verbose_dirs fs0 now hnow hfs
  have hc : (download_lectures class_name sections file_formats overwrite
      skip_download section_filter lecture_filter path verbose_dirs fs0 now).completed
    = (decide (0 ≤ (download_lectures class_name sections file_formats overwrite
        skip_download section_filter lecture_filter path verbose_dirs fs0 now).state.last_update)
      && decide (now - (download_lectures class_name sections file_formats overwrite
        skip_download section_filter lecture_filter path verbose_dirs fs0 now).state.last_update
        > total_seconds 30 0 0)) := rfl
  rw [hc, Bool.and_eq_true, decide_eq_true_iff, decide_eq_true_iff, hlu]
  exact lu_iff_maxObserved now (total_seconds 30 0 0) (by decide) _ hev

/-- Witness for C6: a single pre-existing file with modification time 0 and
a clock far past the 30-day threshold reports the course complete. -/
theorem download_lectures_completion_witness :
    (download_lectures "c" [("A", [("X", [("pdf", "u")])])]
      ["pdf"] false false none none "" false
      ⟨[], [("c/01_A/01_X.pdf", 0)]⟩ 10000000).completed = true :=
  (download_lectures_completion "c" [("A", [("X", [("pdf", "u")])])]
      ["pdf"] false false none none "" false
      ⟨[], [("c/01_A/01_X.pdf", 0)]⟩ 10000000 (by decide)
      (by intro q hq; rw [List.mem_singleton.mp hq])).mpr
    ⟨0, by decide, by decide⟩

end CourseraDL
